import Mathlib

/-!
Shallow embedding of the duplicate-vertex core of `src/streamlit_app.py`:
coordinate flattening (`get_coordinates_with_index`), exact duplicate
detection (`find_duplicate_vertices`), and consecutive-repeat collapsing
(`remove_duplicates_from_geometry`).  Coordinates are modelled as pairs of
rationals; fallible Python operations (IndexError on `[0]` of an empty list,
NameError on an unimported name) are modelled with `Except String`.
-/

namespace DuplicateVert

/-- A coordinate is an (x, y) pair; extra input dimensions are sliced away by
the source (`tuple(coord)[:2]`), so the model carries exactly two components. -/
abbrev Coord : Type := ℚ × ℚ

/-- Geometry sum type over the simple-feature variants the source dispatches on
via `geom_type`: Point, LineString, LinearRing, Polygon (exterior ring plus a
list of interior rings), MultiPoint, MultiLineString, and MultiPolygon (each
component polygon given by its exterior and interiors). -/
inductive Geometry : Type where
  | point : Coord → Geometry
  | lineString : List Coord → Geometry
  | linearRing : List Coord → Geometry
  | polygon : List Coord → List (List Coord) → Geometry
  | multiPoint : List Coord → Geometry
  | multiLineString : List (List Coord) → Geometry
  | multiPolygon : List (List Coord × List (List Coord)) → Geometry
deriving DecidableEq

/-- The closed-ring adjustment the source applies to every LineString /
LinearRing / polygon-ring coordinate list: `unique_coords[0]` raises
IndexError on an empty list; otherwise, if the first and last coordinates are
equal the last one is popped. -/
def ringAdjust (l : List Coord) : Except String (List Coord) :=
  match l with
  | [] => Except.error "IndexError: list index out of range"
  | a :: rest =>
    if (a :: rest).getLast (List.cons_ne_nil a rest) = a then
      Except.ok ((a :: rest).dropLast)
    else
      Except.ok (a :: rest)

/-- Pair each coordinate with a running index, mirroring the
`coords.append((coord, idx)); idx += 1` loop of the source. -/
def withIdx : List Coord → Nat → List (Coord × Nat)
  | [], _ => []
  | c :: cs, i => (c, i) :: withIdx cs (i + 1)

/-- Flattening of one LineString / LinearRing coordinate list: ring-adjust,
then index from 0. -/
def lineFlatten (l : List Coord) : Except String (List (Coord × Nat)) := do
  let u ← ringAdjust l
  pure (withIdx u 0)

/-- Flattening of a polygon's interior rings, with the index continuing across
rings exactly as the source's single `idx` counter does. -/
def ringsFlatten : List (List Coord) → Nat → Except String (List (Coord × Nat))
  | [], _ => Except.ok []
  | r :: rs, i => do
    let u ← ringAdjust r
    let t ← ringsFlatten rs (i + u.length)
    pure (withIdx u i ++ t)

/-- Flattening of one Polygon: exterior ring (ring-adjusted, indexed from 0)
followed by the interior rings with the index continuing. -/
def polyFlatten (ext : List Coord) (ints : List (List Coord)) :
    Except String (List (Coord × Nat)) := do
  let e ← ringAdjust ext
  let t ← ringsFlatten ints e.length
  pure (withIdx e 0 ++ t)

/-- The `for part in geometry.geoms: coords.extend(get_coordinates_with_index(part))`
loop of the Multi* branch: each component is flattened by the recursive call
(so its indices start again at 0) and the results are concatenated; a failing
component propagates its error. -/
def partsFlatten {α : Type} (f : α → Except String (List (Coord × Nat))) :
    List α → Except String (List (Coord × Nat))
  | [] => Except.ok []
  | p :: ps => do
    let h ← f p
    let t ← partsFlatten f ps
    pure (h ++ t)

/-- Embedding of `get_coordinates_with_index` from `src/streamlit_app.py`
(lines 14-52): extract all coordinates of a geometry together with their index. -/
def get_coordinates_with_index : Geometry → Except String (List (Coord × Nat))
  | Geometry.point c => Except.ok [(c, 0)]
  | Geometry.lineString l => lineFlatten l
  | Geometry.linearRing l => lineFlatten l
  | Geometry.polygon ext ints => polyFlatten ext ints
  | Geometry.multiPoint ps => partsFlatten (fun c => Except.ok [(c, 0)]) ps
  | Geometry.multiLineString ls => partsFlatten lineFlatten ls
  | Geometry.multiPolygon ps => partsFlatten (fun p => polyFlatten p.1 p.2) ps

/-- The seen-set single pass of `find_duplicate_vertices`: coordinates already
seen go into the duplicate set, fresh ones into the seen set. -/
def dupScan : List Coord → Finset Coord → Finset Coord → Finset Coord
  | [], _, dups => dups
  | c :: cs, seen, dups =>
    if c ∈ seen then dupScan cs seen (insert c dups)
    else dupScan cs (insert c seen) dups

/-- Embedding of `find_duplicate_vertices` (lines 54-67): flatten, then scan
with a seen set, recording duplicate coordinate values. -/
def find_duplicate_vertices (g : Geometry) : Except String (Finset Coord) :=
  (get_coordinates_with_index g).map (fun l => dupScan (l.map Prod.fst) ∅ ∅)

/-- Modelled from the spec: `shapely.remove_repeated_points` is an external
library function with no source under `src/`; §4.4 specifies it as the shared
primitive `collapse_consecutive`, which removes only runs of identical points
back-to-back along a path, keeping one representative per run. -/
def remove_repeated_points : List Coord → List Coord
  | [] => []
  | [c] => [c]
  | a :: b :: rest =>
    if a = b then remove_repeated_points (b :: rest)
    else a :: remove_repeated_points (b :: rest)

/-- Embedding of `remove_duplicates_from_geometry` (lines 95-114): Polygon
rings and LineStrings are collapsed with `remove_repeated_points`,
MultiLineString components independently; the MultiPolygon branch evaluates
the name `MultiPolygon`, which line 6 never imports, so it raises NameError;
every other kind is returned unchanged. -/
def remove_duplicates_from_geometry : Geometry → Except String Geometry
  | Geometry.polygon ext ints =>
      Except.ok (Geometry.polygon (remove_repeated_points ext)
        (ints.map remove_repeated_points))
  | Geometry.lineString l =>
      Except.ok (Geometry.lineString (remove_repeated_points l))
  | Geometry.multiLineString ls =>
      Except.ok (Geometry.multiLineString (ls.map remove_repeated_points))
  | Geometry.multiPolygon _ =>
      Except.error "NameError: name MultiPolygon is not defined"
  | g => Except.ok g

/-- Modelled from the spec: the per-axis confirmation test of the
ToleranceDuplicateDetector (§4.3), |dx| ≤ tolerance and |dy| ≤ tolerance. -/
def near (tol : ℚ) (p q : Coord) : Bool :=
  decide (|p.1 - q.1| ≤ tol) && decide (|p.2 - q.2| ≤ tol)

/-- Modelled from the spec: the ToleranceDuplicateDetector (§4.3) has no
implementation under `src/`; per the spec, any flattened coordinate with at
least one confirmed neighbor within tolerance (a different occurrence,
"excluding itself") is added, together with that neighbor, to the duplicate
set. -/
def toleranceDupScan (tol : ℚ) (l : List Coord) : Finset Coord :=
  (((withIdx l 0).filter fun p =>
      (withIdx l 0).any fun q => decide (q.2 ≠ p.2) && near tol p.1 q.1).map
    Prod.fst).toFinset

/-- Modelled from the spec: `find_tolerance_duplicates(geometry, tolerance)`
(§4.3) flattens the geometry and collects every coordinate value having a
confirmed neighbor within the tolerance. -/
def find_tolerance_duplicates (g : Geometry) (tol : ℚ) :
    Except String (Finset Coord) :=
  (get_coordinates_with_index g).map (fun l => toleranceDupScan tol (l.map Prod.fst))

/-! ### Lemmas about the seen-set scan -/

/-- Invariant of the seen-set pass: a coordinate ends up in the output iff it
was already a duplicate, or was seen before and occurs again, or occurs at
least twice in the remaining list. -/
theorem mem_dupScan (l : List Coord) :
    ∀ (seen dups : Finset Coord) (c : Coord),
      (c ∈ dupScan l seen dups ↔
        c ∈ dups ∨ (c ∈ seen ∧ c ∈ l) ∨ (c ∉ seen ∧ 2 ≤ l.count c)) := by
  induction l with
  | nil => intro seen dups c; simp [dupScan]
  | cons a t ih =>
    intro seen dups c
    by_cases ha : a ∈ seen <;> by_cases hca : c = a
    · subst hca
      rw [dupScan, if_pos ha, ih]
      simp [ha]
    · rw [dupScan, if_pos ha, ih]
      simp only [Finset.mem_insert, hca, false_or, List.mem_cons,
        List.count_cons_of_ne hca]
    · subst hca
      rw [dupScan, if_neg ha, ih]
      have h2 : 2 ≤ (c :: t).count c ↔ c ∈ t := by
        rw [List.count_cons_self, ← List.count_pos_iff]; omega
      rw [h2]
      simp [ha]
    · rw [dupScan, if_neg ha, ih]
      simp only [Finset.mem_insert, hca, false_or, List.mem_cons,
        List.count_cons_of_ne hca]

/-- Starting from empty seen and duplicate sets, the scan returns exactly the
coordinates occurring at least twice. -/
theorem mem_dupScan_empty (l : List Coord) (c : Coord) :
    c ∈ dupScan l ∅ ∅ ↔ 2 ≤ l.count c := by
  simp [mem_dupScan]

/-- A list without repeated values has no value occurring twice. -/
theorem count_le_one_of_nodup (c : Coord) (l : List Coord) (h : l.Nodup) :
    l.count c ≤ 1 := by
  induction l with
  | nil => simp
  | cons a t ih =>
    rcases List.nodup_cons.mp h with ⟨hna, hnt⟩
    by_cases hca : c = a
    · subst hca
      rw [List.count_cons_self]
      have h0 : t.count c = 0 := List.count_eq_zero.mpr hna
      omega
    · rw [List.count_cons_of_ne hca]
      exact ih hnt

/-- A list without repeated values scans to an empty duplicate set. -/
theorem dupScan_eq_empty_of_nodup (l : List Coord) (h : l.Nodup) :
    dupScan l ∅ ∅ = ∅ := by
  refine Finset.eq_empty_iff_forall_not_mem.mpr fun c hc => ?_
  rw [mem_dupScan_empty] at hc
  have := count_le_one_of_nodup c l h
  omega

/-! ### Lemmas about consecutive-repeat collapsing -/

/-- Collapsing keeps the first coordinate of a nonempty path (the head of the
first run). -/
theorem remove_repeated_points_head (a : Coord) (t : List Coord) :
    (remove_repeated_points (a :: t)).head? = some a := by
  induction t generalizing a with
  | nil => rfl
  | cons b t' ih =>
    rw [remove_repeated_points]
    by_cases hab : a = b
    · rw [if_pos hab, hab]
      exact ih b
    · rw [if_neg hab]
      rfl

/-- A collapsed path has no two adjacent equal coordinates. -/
theorem chain'_remove_repeated_points (l : List Coord) :
    (remove_repeated_points l).Chain' (fun x y => x ≠ y) := by
  induction l with
  | nil => simp [remove_repeated_points]
  | cons a t ih =>
    cases t with
    | nil => simp [remove_repeated_points]
    | cons b t' =>
      by_cases hab : a = b
      · rw [remove_repeated_points, if_pos hab]
        exact ih
      · rw [remove_repeated_points, if_neg hab]
        rw [List.chain'_cons']
        refine ⟨?_, ih⟩
        intro y hy
        rw [remove_repeated_points_head b t'] at hy
        rw [Option.mem_some_iff] at hy
        subst hy
        exact hab

/-- Collapsing only deletes coordinates: the result is a sublist of the input. -/
theorem remove_repeated_points_sublist (l : List Coord) :
    (remove_repeated_points l).Sublist l := by
  induction l with
  | nil => simp [remove_repeated_points]
  | cons a t ih =>
    cases t with
    | nil => simp [remove_repeated_points]
    | cons b t' =>
      by_cases hab : a = b
      · rw [remove_repeated_points, if_pos hab]
        exact ih.trans (List.sublist_cons_self a (b :: t'))
      · rw [remove_repeated_points, if_neg hab]
        exact ih.cons₂ a

/-- Collapsing keeps exactly the coordinate values of the input. -/
theorem mem_remove_repeated_points (l : List Coord) (c : Coord) :
    c ∈ remove_repeated_points l ↔ c ∈ l := by
  constructor
  · exact fun h => (remove_repeated_points_sublist l).subset h
  · intro h
    induction l with
    | nil => simp at h
    | cons a t ih =>
      cases t with
      | nil => exact h
      | cons b t' =>
        by_cases hab : a = b
        · rw [remove_repeated_points, if_pos hab]
          rcases List.mem_cons.mp h with h1 | h1
          · exact ih (by rw [h1, hab]; exact List.mem_cons_self b t')
          · exact ih h1
        · rw [remove_repeated_points, if_neg hab]
          rcases List.mem_cons.mp h with h1 | h1
          · rw [h1]; exact List.mem_cons_self a _
          · exact List.mem_cons_of_mem a (ih h1)

/-- Number of runs of the value c in a list: a run is counted at its last
element (an occurrence of c that is final or followed by a different value). -/
def runCount (c : Coord) : List Coord → Nat
  | [] => 0
  | [a] => if c = a then 1 else 0
  | a :: b :: t => (if c = a ∧ c ≠ b then 1 else 0) + runCount c (b :: t)

/-- Collapsing keeps one representative per run: the multiplicity of each value
in the collapsed list is its number of runs in the input. -/
theorem count_remove_repeated_points (c : Coord) (l : List Coord) :
    (remove_repeated_points l).count c = runCount c l := by
  induction l with
  | nil => rfl
  | cons a t ih =>
    cases t with
    | nil =>
      by_cases hca : c = a
      · subst hca
        simp [remove_repeated_points, runCount, List.count_singleton_self]
      · simp [remove_repeated_points, runCount, hca, List.count_singleton,
          Ne.symm hca]
    | cons b t' =>
      by_cases hab : a = b
      · rw [remove_repeated_points, if_pos hab, ih, runCount]
        have hno : ¬(c = a ∧ c ≠ b) := by
          rintro ⟨h1, h2⟩
          exact h2 (h1.trans hab)
        rw [if_neg hno]
        omega
      · rw [remove_repeated_points, if_neg hab, runCount, List.count_cons, ih]
        by_cases hca : c = a
        · have hcb : c ≠ b := fun h => hab (hca.symm.trans h)
          have e1 : (if a == c then 1 else 0) = 1 := by simp [hca]
          have e2 : (if c = a ∧ c ≠ b then 1 else 0) = 1 := if_pos ⟨hca, hcb⟩
          rw [e1, e2]
          omega
        · have e1 : (a == c) = false := beq_eq_false_iff_ne.mpr fun h => hca h.symm
          have e2 : ¬(c = a ∧ c ≠ b) := fun h => hca h.1
          rw [if_neg e2, e1]
          simp

/-- Prepending an element cannot decrease the number of runs. -/
theorem runCount_cons_le (c a : Coord) (t : List Coord) :
    runCount c t ≤ runCount c (a :: t) := by
  cases t with
  | nil => simp [runCount]
  | cons b t' =>
    rw [runCount]
    exact Nat.le_add_left _ _

/-- A value occurring in a list forms at least one run. -/
theorem runCount_pos_of_mem {c : Coord} {l : List Coord} (h : c ∈ l) :
    1 ≤ runCount c l := by
  induction l with
  | nil => simp at h
  | cons a t ih =>
    cases t with
    | nil =>
      have hca : c = a := List.mem_singleton.mp h
      rw [runCount, if_pos hca]
    | cons b t' =>
      by_cases hcb : c ∈ b :: t'
      · exact le_trans (ih hcb) (runCount_cons_le c a (b :: t'))
      · have hca : c = a := by
          rcases List.mem_cons.mp h with h1 | h1
          · exact h1
          · exact absurd h1 hcb
        have hcbne : c ≠ b := fun h2 => hcb (h2 ▸ List.mem_cons_self b t')
        rw [runCount, if_pos ⟨hca, hcbne⟩]
        omega

/-- A leading element of a different value does not change the run count. -/
theorem runCount_cons_ne {c d : Coord} (h : c ≠ d) (l : List Coord) :
    runCount c (d :: l) = runCount c l := by
  cases l with
  | nil => simp [runCount, h]
  | cons b t =>
    rw [runCount, if_neg (fun hh => h hh.1)]
    omega

/-- A separator of a different value splits the run count additively. -/
theorem runCount_append_sep {c d : Coord} (h : c ≠ d) (xs ys : List Coord) :
    runCount c (xs ++ d :: ys) = runCount c (xs ++ [d]) + runCount c ys := by
  induction xs with
  | nil =>
    simp only [List.nil_append]
    have h2 : runCount c [d] = 0 := by simp [runCount, h]
    rw [runCount_cons_ne h, h2]
    omega
  | cons a xs' ih =>
    cases xs' with
    | nil =>
      have h1 : runCount c ([a] ++ d :: ys) =
          (if c = a ∧ c ≠ d then 1 else 0) + runCount c (d :: ys) := rfl
      have h2 : runCount c ([a] ++ [d]) =
          (if c = a ∧ c ≠ d then 1 else 0) + runCount c [d] := rfl
      have h3 : runCount c [d] = 0 := by simp [runCount, h]
      rw [h1, h2, h3, runCount_cons_ne h]
      omega
    | cons e xs'' =>
      have h1 : runCount c ((a :: e :: xs'') ++ d :: ys) =
          (if c = a ∧ c ≠ e then 1 else 0) + runCount c ((e :: xs'') ++ d :: ys) := rfl
      have h2 : runCount c ((a :: e :: xs'') ++ [d]) =
          (if c = a ∧ c ≠ e then 1 else 0) + runCount c ((e :: xs'') ++ [d]) := rfl
      rw [h1, h2, ih]
      omega

/-- Two occurrences of c separated by a different value form at least two runs. -/
theorem two_le_runCount {c d : Coord} (xs ys : List Coord) (h : c ≠ d)
    (hx : c ∈ xs) (hy : c ∈ ys) : 2 ≤ runCount c (xs ++ d :: ys) := by
  rw [runCount_append_sep h]
  have h1 : 1 ≤ runCount c (xs ++ [d]) :=
    runCount_pos_of_mem (List.mem_append_left [d] hx)
  have h2 : 1 ≤ runCount c ys := runCount_pos_of_mem hy
  omega

/-! ### Lemmas about indexing -/

/-- Indexing does not change the number of coordinates. -/
theorem withIdx_length (l : List Coord) : ∀ n, (withIdx l n).length = l.length := by
  induction l with
  | nil => intro n; rfl
  | cons a t ih => intro n; simp [withIdx, ih]

/-- The indices produced by `withIdx` are the consecutive naturals from the
starting value. -/
theorem withIdx_snd (l : List Coord) :
    ∀ n, (withIdx l n).map Prod.snd = List.range' n l.length := by
  induction l with
  | nil => intro n; rfl
  | cons a t ih =>
    intro n
    simp [withIdx, List.range'_succ, ih]

/-- The coordinate of an indexed entry occurs in the underlying list. -/
theorem fst_mem_of_mem_withIdx :
    ∀ {l : List Coord} {n : Nat} {p : Coord × Nat}, p ∈ withIdx l n → p.1 ∈ l := by
  intro l
  induction l with
  | nil => intro n p h; simp [withIdx] at h
  | cons a t ih =>
    intro n p h
    rw [withIdx] at h
    rcases List.mem_cons.mp h with h1 | h1
    · rw [h1]; exact List.mem_cons_self a t
    · exact List.mem_cons_of_mem a (ih h1)

/-- Every coordinate of the list appears at some index. -/
theorem mem_withIdx_of_mem :
    ∀ {l : List Coord} {c : Coord} (n : Nat), c ∈ l → ∃ i, (c, i) ∈ withIdx l n := by
  intro l
  induction l with
  | nil => intro c n h; simp at h
  | cons a t ih =>
    intro c n h
    rcases List.mem_cons.mp h with h1 | h1
    · exact ⟨n, by rw [h1, withIdx]; exact List.mem_cons_self _ _⟩
    · obtain ⟨i, hi⟩ := ih (n + 1) h1
      exact ⟨i, by rw [withIdx]; exact List.mem_cons_of_mem _ hi⟩

/-- Indices produced by `withIdx` are at least the starting index. -/
theorem le_idx_of_mem_withIdx :
    ∀ {l : List Coord} {n : Nat} {c : Coord} {i : Nat},
      (c, i) ∈ withIdx l n → n ≤ i := by
  intro l
  induction l with
  | nil => intro n c i h; simp [withIdx] at h
  | cons a t ih =>
    intro n c i h
    rw [withIdx] at h
    rcases List.mem_cons.mp h with h1 | h1
    · have := (Prod.mk.injEq c i a n).mp h1
      omega
    · have := ih h1
      omega

/-- There are two distinct indexed occurrences of a coordinate exactly when it
occurs at least twice in the list. -/
theorem two_mem_withIdx_iff (l : List Coord) (c : Coord) :
    ∀ n, (∃ i j, i ≠ j ∧ (c, i) ∈ withIdx l n ∧ (c, j) ∈ withIdx l n) ↔
      2 ≤ l.count c := by
  induction l with
  | nil => intro n; simp [withIdx]
  | cons a t ih =>
    intro n
    constructor
    · rintro ⟨i, j, hij, hi, hj⟩
      rw [withIdx] at hi hj
      rcases List.mem_cons.mp hi with h1 | h1 <;> rcases List.mem_cons.mp hj with h2 | h2
      · have e1 := (Prod.mk.injEq c i a n).mp h1
        have e2 := (Prod.mk.injEq c j a n).mp h2
        omega
      · obtain ⟨hca, hin⟩ := (Prod.mk.injEq c i a n).mp h1
        subst hca
        have hct : c ∈ t := fst_mem_of_mem_withIdx h2
        have hpos : 0 < t.count c := List.count_pos_iff.mpr hct
        rw [List.count_cons_self]
        omega
      · obtain ⟨hca, hjn⟩ := (Prod.mk.injEq c j a n).mp h2
        subst hca
        have hct : c ∈ t := fst_mem_of_mem_withIdx h1
        have hpos : 0 < t.count c := List.count_pos_iff.mpr hct
        rw [List.count_cons_self]
        omega
      · have h2t := (ih (n + 1)).mp ⟨i, j, hij, h1, h2⟩
        have := List.count_le_count_cons c a t
        omega
    · intro h2
      by_cases hca : c = a
      · subst hca
        rw [List.count_cons_self] at h2
        have hct : c ∈ t := List.count_pos_iff.mp (by omega)
        obtain ⟨j, hj⟩ := mem_withIdx_of_mem (n + 1) hct
        have hjn := le_idx_of_mem_withIdx hj
        refine ⟨n, j, by omega, ?_, ?_⟩
        · rw [withIdx]; exact List.mem_cons_self _ _
        · rw [withIdx]; exact List.mem_cons_of_mem _ hj
      · rw [List.count_cons_of_ne hca] at h2
        obtain ⟨i, j, hij, hi, hj⟩ := (ih (n + 1)).mpr h2
        refine ⟨i, j, hij, ?_, ?_⟩
        · rw [withIdx]; exact List.mem_cons_of_mem _ hi
        · rw [withIdx]; exact List.mem_cons_of_mem _ hj

/-- Dropping the indices recovers the underlying coordinate list. -/
theorem withIdx_fst (l : List Coord) : ∀ n, (withIdx l n).map Prod.fst = l := by
  induction l with
  | nil => intro n; rfl
  | cons a t ih => intro n; simp [withIdx, ih]

/-! ### Lemmas about ring adjustment and flattening -/

/-- Reduction of a successful bind in the `Except` monad. -/
theorem okBind {α β : Type} (a : α) (f : α → Except String β) :
    (Except.ok a >>= f) = f a := rfl

/-- Reduction of a failing bind in the `Except` monad. -/
theorem errBind {α β : Type} (e : String) (f : α → Except String β) :
    ((Except.error e : Except String α) >>= f) = Except.error e := rfl

/-- Reduction of `Functor.map` over a successful `Except` value. -/
theorem okMap {α β : Type} (a : α) (f : α → β) :
    (f <$> (Except.ok a : Except String α)) = Except.ok (f a) := rfl

/-- Reduction of `Functor.map` over a failing `Except` value. -/
theorem errMap {α β : Type} (e : String) (f : α → β) :
    (f <$> (Except.error e : Except String α)) = Except.error e := rfl

/-- On a closed coordinate list (first equals last) the adjustment drops the
final coordinate. -/
theorem ringAdjust_closed (a : Coord) (rest : List Coord)
    (h : (a :: rest).getLast (List.cons_ne_nil a rest) = a) :
    ringAdjust (a :: rest) = Except.ok ((a :: rest).dropLast) := by
  rw [ringAdjust, if_pos h]

/-- Flattening a closed LineString/LinearRing list indexes the list without
its final coordinate. -/
theorem lineFlatten_closed (a : Coord) (rest : List Coord)
    (h : (a :: rest).getLast (List.cons_ne_nil a rest) = a) :
    lineFlatten (a :: rest) = Except.ok (withIdx ((a :: rest).dropLast) 0) := by
  simp [lineFlatten, ringAdjust_closed a rest h, okBind]

/-- Inversion for a successful line flattening. -/
theorem lineFlatten_ok (l : List Coord) (u : List (Coord × Nat))
    (h : lineFlatten l = Except.ok u) :
    ∃ v, ringAdjust l = Except.ok v ∧ u = withIdx v 0 := by
  cases hr : ringAdjust l with
  | error e => simp [lineFlatten, hr, errBind] at h
  | ok v =>
    simp [lineFlatten, hr, okBind] at h
    exact ⟨v, rfl, h.symm⟩

/-- The indices of successfully flattened interior rings are the consecutive
naturals from the starting index. -/
theorem ringsFlatten_snd :
    ∀ (rs : List (List Coord)) (i : Nat) (t : List (Coord × Nat)),
      ringsFlatten rs i = Except.ok t → t.map Prod.snd = List.range' i t.length := by
  intro rs
  induction rs with
  | nil =>
    intro i t h
    simp [ringsFlatten] at h
    rw [h]
    rfl
  | cons r rs ih =>
    intro i t h
    cases hr : ringAdjust r with
    | error e => simp [ringsFlatten, hr, errBind] at h
    | ok u =>
      cases hrs : ringsFlatten rs (i + u.length) with
      | error e => simp [ringsFlatten, hr, hrs, okBind, errMap] at h
      | ok t' =>
        simp [ringsFlatten, hr, hrs, okBind, okMap] at h
        rw [← h, List.map_append, withIdx_snd, ih _ _ hrs, List.length_append,
          withIdx_length, Nat.add_comm u.length t'.length]
        exact List.range'_append_1 i u.length t'.length

/-- The indices of a successfully flattened polygon are 0, 1, 2, …, continuing
across the exterior and the interior rings. -/
theorem polyFlatten_snd (e : List Coord) (ints : List (List Coord))
    (u : List (Coord × Nat)) (h : polyFlatten e ints = Except.ok u) :
    u.map Prod.snd = List.range u.length := by
  cases hr : ringAdjust e with
  | error err => simp [polyFlatten, hr, errBind] at h
  | ok ev =>
    cases hrs : ringsFlatten ints ev.length with
    | error err => simp [polyFlatten, hr, hrs, okBind, errMap] at h
    | ok t =>
      simp [polyFlatten, hr, hrs, okBind, okMap] at h
      rw [← h, List.map_append, withIdx_snd, ringsFlatten_snd _ _ _ hrs,
        List.length_append, withIdx_length, List.range_eq_range',
        Nat.add_comm ev.length t.length]
      simpa using List.range'_append_1 0 ev.length t.length

/-- Flattening a Polygon whose exterior is closed and which has no interior
rings indexes the exterior without its final coordinate. -/
theorem polyFlatten_closed_noints (a : Coord) (rest : List Coord)
    (h : (a :: rest).getLast (List.cons_ne_nil a rest) = a) :
    polyFlatten (a :: rest) [] = Except.ok (withIdx ((a :: rest).dropLast) 0) := by
  simp [polyFlatten, ringAdjust_closed a rest h, ringsFlatten, okBind, okMap]

/-- A closed interior ring is also flattened without its final coordinate,
with the index continuing past it. -/
theorem ringsFlatten_closed_head (a : Coord) (rest : List Coord)
    (rs : List (List Coord)) (i : Nat)
    (h : (a :: rest).getLast (List.cons_ne_nil a rest) = a) :
    ringsFlatten ((a :: rest) :: rs) i =
      (ringsFlatten rs (i + rest.length)).map
        (fun t => withIdx ((a :: rest).dropLast) i ++ t) := by
  have hlen : (a :: rest).dropLast.length = rest.length := by
    simp
  cases hrs : ringsFlatten rs (i + rest.length) with
  | error e =>
    simp [ringsFlatten, ringAdjust_closed a rest h, hlen, hrs, okBind, errMap,
      Except.map]
  | ok t =>
    simp [ringsFlatten, ringAdjust_closed a rest h, hlen, hrs, okBind, okMap,
      Except.map]

/-- The Multi* recursion flattens every point of a MultiPoint with index 0. -/
theorem partsFlatten_points (ps : List Coord) :
    partsFlatten (fun c => Except.ok [(c, 0)]) ps =
      Except.ok (ps.map fun c => (c, 0)) := by
  induction ps with
  | nil => rfl
  | cons p ps ih => simp [partsFlatten, ih, okBind]

/-! ### Lemmas about the tolerance detector -/

/-- At tolerance 0 the per-axis neighbor test is exact coordinate equality. -/
theorem near_zero (p q : Coord) : near 0 p q = true ↔ p = q := by
  simp only [near, Bool.and_eq_true, decide_eq_true_eq]
  rw [abs_nonpos_iff, abs_nonpos_iff, sub_eq_zero, sub_eq_zero, Prod.ext_iff]

/-- At tolerance 0 the spec's tolerance scan computes exactly the seen-set
duplicate scan. -/
theorem toleranceDupScan_zero (l : List Coord) :
    toleranceDupScan 0 l = dupScan l ∅ ∅ := by
  ext c
  rw [mem_dupScan_empty]
  simp only [toleranceDupScan, List.mem_toFinset, List.mem_map, List.mem_filter,
    List.any_eq_true, Bool.and_eq_true, decide_eq_true_eq]
  constructor
  · rintro ⟨p, ⟨hp, q, hq, hne, hnear⟩, hfst⟩
    have hpq : p.1 = q.1 := near_zero p.1 q.1 |>.mp hnear
    rw [← two_mem_withIdx_iff l c 0]
    refine ⟨q.2, p.2, hne, ?_, ?_⟩
    · have : q = (c, q.2) := by
        rw [Prod.ext_iff]
        exact ⟨by rw [← hpq, hfst], rfl⟩
      rw [← this]
      exact hq
    · have : p = (c, p.2) := by
        rw [Prod.ext_iff]
        exact ⟨hfst, rfl⟩
      rw [← this]
      exact hp
  · intro h2
    obtain ⟨i, j, hij, hi, hj⟩ := (two_mem_withIdx_iff l c 0).mpr h2
    refine ⟨(c, i), ⟨hi, (c, j), hj, by simpa using hij.symm, ?_⟩, rfl⟩
    exact (near_zero c c).mpr rfl

/-! ### Claim theorems -/

/-- C1: for every geometry whose flattening succeeds with list l,
`find_duplicate_vertices` returns exactly the set of coordinate values that
occur more than once in the flattened sequence (only values, not positions,
are recorded by the seen-set single pass). -/
theorem C1_exact_duplicates (g : Geometry) (l : List (Coord × Nat))
    (h : get_coordinates_with_index g = Except.ok l) :
    ∃ s, find_duplicate_vertices g = Except.ok s ∧
      ∀ c, c ∈ s ↔ 2 ≤ (l.map Prod.fst).count c := by
  refine ⟨dupScan (l.map Prod.fst) ∅ ∅, ?_, ?_⟩
  · rw [find_duplicate_vertices, h]
    rfl
  · intro c
    exact mem_dupScan_empty _ c

/-- Witness for C1 at the LineString [(0,0), (1,1), (0,0), (2,2)]: the
duplicate set is characterized by multiplicity, and equals the singleton
set containing (0,0). -/
theorem C1_exact_duplicates_witness :
    (∃ s, find_duplicate_vertices
        (Geometry.lineString [((0 : ℚ), (0 : ℚ)), (1, 1), (0, 0), (2, 2)]) =
          Except.ok s ∧
      ∀ c, c ∈ s ↔ 2 ≤
        (([(((0 : ℚ), (0 : ℚ)), 0), ((1, 1), 1), ((0, 0), 2), ((2, 2), 3)].map
          Prod.fst).count c)) ∧
    find_duplicate_vertices
        (Geometry.lineString [((0 : ℚ), (0 : ℚ)), (1, 1), (0, 0), (2, 2)]) =
      Except.ok {((0 : ℚ), (0 : ℚ))} :=
  ⟨C1_exact_duplicates _ _ rfl, rfl⟩

/-- C2: for every LineString, LinearRing, or Polygon ring whose first and last
stored coordinates are equal, flattening drops the final coordinate before
indexing (so N stored coordinates yield N−1 logical vertices, also for
interior rings), and if the remaining vertices are pairwise distinct the
duplicate set is empty — the synthetic closure coordinate is never reported
as a duplicate solely because of ring closure. -/
theorem C2_ring_closure (a : Coord) (rest : List Coord)
    (h : (a :: rest).getLast (List.cons_ne_nil a rest) = a) :
    get_coordinates_with_index (Geometry.lineString (a :: rest)) =
        Except.ok (withIdx ((a :: rest).dropLast) 0) ∧
    get_coordinates_with_index (Geometry.linearRing (a :: rest)) =
        Except.ok (withIdx ((a :: rest).dropLast) 0) ∧
    get_coordinates_with_index (Geometry.polygon (a :: rest) []) =
        Except.ok (withIdx ((a :: rest).dropLast) 0) ∧
    (withIdx ((a :: rest).dropLast) 0).length = (a :: rest).length - 1 ∧
    (∀ rs i, ringsFlatten ((a :: rest) :: rs) i =
      (ringsFlatten rs (i + rest.length)).map
        (fun t => withIdx ((a :: rest).dropLast) i ++ t)) ∧
    ((a :: rest).dropLast.Nodup →
      find_duplicate_vertices (Geometry.lineString (a :: rest)) = Except.ok ∅ ∧
      find_duplicate_vertices (Geometry.polygon (a :: rest) []) = Except.ok ∅) := by
  have hline := lineFlatten_closed a rest h
  have hpoly := polyFlatten_closed_noints a rest h
  refine ⟨hline, hline, hpoly, ?_, ?_, ?_⟩
  · rw [withIdx_length, List.length_dropLast]
  · intro rs i
    exact ringsFlatten_closed_head a rest rs i h
  · intro hnd
    have hscan : dupScan ((withIdx ((a :: rest).dropLast) 0).map Prod.fst) ∅ ∅ = ∅ := by
      rw [withIdx_fst]
      exact dupScan_eq_empty_of_nodup _ hnd
    constructor
    · rw [find_duplicate_vertices]
      show (lineFlatten (a :: rest)).map _ = _
      rw [hline, Except.map, hscan]
    · rw [find_duplicate_vertices]
      show (polyFlatten (a :: rest) []).map _ = _
      rw [hpoly, Except.map, hscan]

/-- Witness for C2 at the closed ring [(0,0), (1,0), (1,1), (0,0)]: flattening
keeps the 3 distinct vertices and detection reports no duplicate. -/
theorem C2_ring_closure_witness :
    (((0 : ℚ), (0 : ℚ)) :: [(((1 : ℚ)), ((0 : ℚ))), ((1 : ℚ), (1 : ℚ)),
        ((0 : ℚ), (0 : ℚ))]).getLast (List.cons_ne_nil _ _) = ((0 : ℚ), (0 : ℚ)) ∧
    get_coordinates_with_index
        (Geometry.lineString [((0 : ℚ), (0 : ℚ)), (1, 0), (1, 1), (0, 0)]) =
      Except.ok [(((0 : ℚ), (0 : ℚ)), 0), ((1, 0), 1), ((1, 1), 2)] ∧
    find_duplicate_vertices
        (Geometry.polygon [((0 : ℚ), (0 : ℚ)), (1, 0), (1, 1), (0, 0)] []) =
      Except.ok ∅ := by
  have h := C2_ring_closure ((0 : ℚ), (0 : ℚ)) [(1, 0), (1, 1), (0, 0)] rfl
  exact ⟨rfl, h.1, (h.2.2.2.2.2 (by decide)).2⟩

/-- C3 (code bug): on an empty LineString and on a Polygon with no rings, the
source's unguarded `coords[0]` raises IndexError, so flattening and duplicate
detection fail instead of returning an empty sequence/set; collapse does
return the empty geometry unchanged. -/
theorem C3_empty_geometry_error :
    get_coordinates_with_index (Geometry.lineString []) =
        Except.error "IndexError: list index out of range" ∧
    find_duplicate_vertices (Geometry.lineString []) =
        Except.error "IndexError: list index out of range" ∧
    get_coordinates_with_index (Geometry.polygon [] []) =
        Except.error "IndexError: list index out of range" ∧
    find_duplicate_vertices (Geometry.polygon [] []) =
        Except.error "IndexError: list index out of range" ∧
    remove_duplicates_from_geometry (Geometry.lineString []) =
        Except.ok (Geometry.lineString []) ∧
    remove_duplicates_from_geometry (Geometry.polygon [] []) =
        Except.ok (Geometry.polygon [] []) :=
  ⟨rfl, rfl, rfl, rfl, rfl, rfl⟩

/-- C4 (code bug): on every MultiPolygon, collapse raises NameError, because
line 6 of the source never imports the name MultiPolygon used on line 111;
in particular it fails on a MultiPolygon holding one square. -/
theorem C4_multipolygon_name_error :
    (∀ ps, remove_duplicates_from_geometry (Geometry.multiPolygon ps) =
      Except.error "NameError: name MultiPolygon is not defined") ∧
    remove_duplicates_from_geometry
        (Geometry.multiPolygon [([((0 : ℚ), (0 : ℚ)), (1, 0), (1, 1), (0, 0)], [])]) =
      Except.error "NameError: name MultiPolygon is not defined" :=
  ⟨fun _ => rfl, rfl⟩

/-- C5: collapsing a LineString removes exactly the runs of consecutive
identical coordinates, keeping one representative per run (the output is a
sublist with no adjacent equal pair, whose multiplicity per value is the
input's run count); in particular
[(0,0), (0,0), (1,1), (1,1), (1,1), (2,2)] collapses to [(0,0), (1,1), (2,2)]. -/
theorem C5_collapse_consecutive :
    remove_duplicates_from_geometry
        (Geometry.lineString [((0 : ℚ), (0 : ℚ)), (0, 0), (1, 1), (1, 1), (1, 1), (2, 2)]) =
      Except.ok (Geometry.lineString [((0 : ℚ), (0 : ℚ)), (1, 1), (2, 2)]) ∧
    ∀ l : List Coord,
      remove_duplicates_from_geometry (Geometry.lineString l) =
        Except.ok (Geometry.lineString (remove_repeated_points l)) ∧
      (remove_repeated_points l).Chain' (fun x y => x ≠ y) ∧
      (remove_repeated_points l).Sublist l ∧
      (∀ c, (remove_repeated_points l).count c = runCount c l) :=
  ⟨rfl, fun l => ⟨rfl, chain'_remove_repeated_points l,
    remove_repeated_points_sublist l, fun c => count_remove_repeated_points c l⟩⟩

/-- C6: collapse removes only consecutive repeats — whenever a coordinate c
occurs both before and after some different vertex d in a ring or line, the
collapsed output still contains c at least twice (both non-adjacent
occurrences are preserved). -/
theorem C6_nonadjacent_preserved (c d : Coord) (xs ys : List Coord)
    (ints : List (List Coord)) (hd : c ≠ d) (hx : c ∈ xs) (hy : c ∈ ys) :
    remove_duplicates_from_geometry (Geometry.polygon (xs ++ d :: ys) ints) =
      Except.ok (Geometry.polygon (remove_repeated_points (xs ++ d :: ys))
        (ints.map remove_repeated_points)) ∧
    remove_duplicates_from_geometry (Geometry.lineString (xs ++ d :: ys)) =
      Except.ok (Geometry.lineString (remove_repeated_points (xs ++ d :: ys))) ∧
    2 ≤ (remove_repeated_points (xs ++ d :: ys)).count c := by
  refine ⟨rfl, rfl, ?_⟩
  rw [count_remove_repeated_points]
  exact two_le_runCount xs ys hd hx hy

/-- Witness for C6 at a polygon ring with a legitimate self-touch at (0,0)
mid-ring: both occurrences survive collapsing. -/
theorem C6_nonadjacent_preserved_witness :
    remove_duplicates_from_geometry
        (Geometry.polygon ([((0 : ℚ), (0 : ℚ))] ++ ((5 : ℚ), (0 : ℚ)) ::
          [((5 : ℚ), (5 : ℚ)), (0, 0), (2, 7), (2, 0), (0, 0)]) []) =
      Except.ok (Geometry.polygon
        (remove_repeated_points ([((0 : ℚ), (0 : ℚ))] ++ ((5 : ℚ), (0 : ℚ)) ::
          [((5 : ℚ), (5 : ℚ)), (0, 0), (2, 7), (2, 0), (0, 0)]))
        (([] : List (List Coord)).map remove_repeated_points)) ∧
    remove_duplicates_from_geometry
        (Geometry.lineString ([((0 : ℚ), (0 : ℚ))] ++ ((5 : ℚ), (0 : ℚ)) ::
          [((5 : ℚ), (5 : ℚ)), (0, 0), (2, 7), (2, 0), (0, 0)])) =
      Except.ok (Geometry.lineString
        (remove_repeated_points ([((0 : ℚ), (0 : ℚ))] ++ ((5 : ℚ), (0 : ℚ)) ::
          [((5 : ℚ), (5 : ℚ)), (0, 0), (2, 7), (2, 0), (0, 0)]))) ∧
    2 ≤ (remove_repeated_points ([((0 : ℚ), (0 : ℚ))] ++ ((5 : ℚ), (0 : ℚ)) ::
          [((5 : ℚ), (5 : ℚ)), (0, 0), (2, 7), (2, 0), (0, 0)])).count
        ((0 : ℚ), (0 : ℚ)) :=
  C6_nonadjacent_preserved ((0 : ℚ), (0 : ℚ)) ((5 : ℚ), (0 : ℚ))
    [((0 : ℚ), (0 : ℚ))] [((5 : ℚ), (5 : ℚ)), (0, 0), (2, 7), (2, 0), (0, 0)] []
    (by decide) (by decide) (by decide)

/-- C7 counterexample: flattening the MultiLineString
[[(0,0),(1,1)], [(2,2),(3,3)]] yields indices 0, 1, 0, 1 — the positional
indices restart per component and are not strictly increasing across
components, refuting the claim as stated. -/
theorem C7_counterexample :
    get_coordinates_with_index
        (Geometry.multiLineString [[((0 : ℚ), (0 : ℚ)), (1, 1)], [(2, 2), (3, 3)]]) =
      Except.ok [(((0 : ℚ), (0 : ℚ)), 0), ((1, 1), 1), ((2, 2), 0), ((3, 3), 1)] ∧
    ¬ List.Chain' (fun i j => i < j)
        ([(((0 : ℚ), (0 : ℚ)), 0), ((1, 1), 1), ((2, 2), 0), ((3, 3), 1)].map
          Prod.snd) := by
  refine ⟨rfl, ?_⟩
  show ¬ List.Chain' (fun i j => i < j) [0, 1, 0, 1]
  simp [List.chain'_cons]

/-- C7 (amended): for every MultiPoint, MultiLineString, or MultiPolygon,
flattening processes the components in stored order and concatenates their
flattenings, but each component's indices restart at 0 (the source increments
its `idx` accumulator without ever applying it to the recursive results):
every MultiPoint coordinate gets index 0, and every successfully flattened
LineString or Polygon component carries indices 0, 1, …, len−1. -/
theorem C7_multi_concatenation (p : List Coord) (q : List Coord × List (List Coord))
    (ps : List (List Coord)) (qs : List (List Coord × List (List Coord)))
    (u v t w : List (Coord × Nat))
    (hu : lineFlatten p = Except.ok u)
    (ht : get_coordinates_with_index (Geometry.multiLineString ps) = Except.ok t)
    (hv : polyFlatten q.1 q.2 = Except.ok v)
    (hw : get_coordinates_with_index (Geometry.multiPolygon qs) = Except.ok w) :
    (∀ cs : List Coord, get_coordinates_with_index (Geometry.multiPoint cs) =
      Except.ok (cs.map fun c => (c, 0))) ∧
    get_coordinates_with_index (Geometry.multiLineString (p :: ps)) =
      Except.ok (u ++ t) ∧
    get_coordinates_with_index (Geometry.multiPolygon (q :: qs)) =
      Except.ok (v ++ w) ∧
    u.map Prod.snd = List.range u.length ∧
    v.map Prod.snd = List.range v.length := by
  refine ⟨partsFlatten_points, ?_, ?_, ?_, polyFlatten_snd q.1 q.2 v hv⟩
  · show partsFlatten lineFlatten (p :: ps) = _
    rw [partsFlatten, hu, okBind]
    rw [show partsFlatten lineFlatten ps =
      get_coordinates_with_index (Geometry.multiLineString ps) from rfl, ht, okBind]
    rfl
  · show partsFlatten (fun r => polyFlatten r.1 r.2) (q :: qs) = _
    rw [partsFlatten, hv, okBind]
    rw [show partsFlatten (fun r => polyFlatten r.1 r.2) qs =
      get_coordinates_with_index (Geometry.multiPolygon qs) from rfl, hw, okBind]
    rfl
  · obtain ⟨pv, hpv, hupv⟩ := lineFlatten_ok p u hu
    rw [hupv, withIdx_snd, withIdx_length, List.range_eq_range']

/-- Witness for the amended C7 at the MultiLineString
[[(0,0),(1,1)], [(2,2),(3,3)]] and the MultiPolygon holding one square. -/
theorem C7_multi_concatenation_witness :
    get_coordinates_with_index
        (Geometry.multiLineString [[((0 : ℚ), (0 : ℚ)), (1, 1)], [(2, 2), (3, 3)]]) =
      Except.ok ([(((0 : ℚ), (0 : ℚ)), 0), ((1, 1), 1)] ++ [((2, 2), 0), ((3, 3), 1)]) ∧
    get_coordinates_with_index
        (Geometry.multiPolygon [([((0 : ℚ), (0 : ℚ)), (1, 0), (1, 1), (0, 0)], [])]) =
      Except.ok ([(((0 : ℚ), (0 : ℚ)), 0), ((1, 0), 1), ((1, 1), 2)] ++ []) ∧
    ([(((0 : ℚ), (0 : ℚ)), 0), ((1, 1), 1)].map Prod.snd) =
      List.range ([(((0 : ℚ), (0 : ℚ)), 0), ((1, 1), 1)].length) := by
  have h := C7_multi_concatenation [((0 : ℚ), (0 : ℚ)), (1, 1)]
    ([((0 : ℚ), (0 : ℚ)), (1, 0), (1, 1), (0, 0)], []) [[(2, 2), (3, 3)]] []
    [(((0 : ℚ), (0 : ℚ)), 0), ((1, 1), 1)]
    [(((0 : ℚ), (0 : ℚ)), 0), ((1, 0), 1), ((1, 1), 2)]
    [((2, 2), 0), ((3, 3), 1)] [] rfl rfl rfl rfl
  exact ⟨h.2.1, h.2.2.1, h.2.2.2.1⟩

/-- C8: at tolerance 0 the spec's tolerance detector degenerates to exactly
the exact-match detector, on every geometry (including the error cases, which
propagate identically). -/
theorem C8_tolerance_zero (g : Geometry) :
    find_tolerance_duplicates g 0 = find_duplicate_vertices g := by
  rw [find_tolerance_duplicates, find_duplicate_vertices]
  cases h : get_coordinates_with_index g with
  | error e => rfl
  | ok l =>
    rw [Except.map, Except.map, toleranceDupScan_zero]

/-- C9: the final-coordinate drop applies to every LineString whose first and
last coordinates are equal, not only to true rings; consequently the genuine
endpoint duplicate of the incidentally closed LineString [(0,0), (1,1), (0,0)]
is silently not reported — its duplicate set is empty. -/
theorem C9_incidental_closure (a : Coord) (rest : List Coord)
    (h : (a :: rest).getLast (List.cons_ne_nil a rest) = a) :
    get_coordinates_with_index (Geometry.lineString (a :: rest)) =
      Except.ok (withIdx ((a :: rest).dropLast) 0) ∧
    find_duplicate_vertices (Geometry.lineString [((0 : ℚ), (0 : ℚ)), (1, 1), (0, 0)]) =
      Except.ok ∅ :=
  ⟨lineFlatten_closed a rest h, rfl⟩

/-- Witness for C9 at the incidentally closed LineString [(0,0), (1,1), (0,0)]. -/
theorem C9_incidental_closure_witness :
    get_coordinates_with_index
        (Geometry.lineString [((0 : ℚ), (0 : ℚ)), (1, 1), (0, 0)]) =
      Except.ok (withIdx (([((0 : ℚ), (0 : ℚ)), (1, 1), (0, 0)]).dropLast) 0) ∧
    find_duplicate_vertices (Geometry.lineString [((0 : ℚ), (0 : ℚ)), (1, 1), (0, 0)]) =
      Except.ok ∅ :=
  C9_incidental_closure ((0 : ℚ), (0 : ℚ)) [(1, 1), (0, 0)] rfl

/-- C10: collapse preserves the geometry's variant for LineString, Polygon,
and MultiLineString inputs, and returns Point, MultiPoint, and the kinds
outside its dispatch (LinearRing) as the identical input value. -/
theorem C10_variant_preserved :
    (∀ l, remove_duplicates_from_geometry (Geometry.lineString l) =
      Except.ok (Geometry.lineString (remove_repeated_points l))) ∧
    (∀ e ints, remove_duplicates_from_geometry (Geometry.polygon e ints) =
      Except.ok (Geometry.polygon (remove_repeated_points e)
        (ints.map remove_repeated_points))) ∧
    (∀ ls, remove_duplicates_from_geometry (Geometry.multiLineString ls) =
      Except.ok (Geometry.multiLineString (ls.map remove_repeated_points))) ∧
    (∀ c, remove_duplicates_from_geometry (Geometry.point c) =
      Except.ok (Geometry.point c)) ∧
    (∀ ps, remove_duplicates_from_geometry (Geometry.multiPoint ps) =
      Except.ok (Geometry.multiPoint ps)) ∧
    (∀ r, remove_duplicates_from_geometry (Geometry.linearRing r) =
      Except.ok (Geometry.linearRing r)) :=
  ⟨fun _ => rfl, fun _ _ => rfl, fun _ => rfl, fun _ => rfl, fun _ => rfl,
    fun _ => rfl⟩

end DuplicateVert
